import Mathlib

/-!
Verification of the claude-shell context engine against its source.

This file shallowly embeds the parts of the repository that the verified
claims are about:

* the token estimator (`src/context/tokens.ts`, bundled in `src/client.ts`),
* the conversation window (`src/context/window.ts`, bundled),
* the topic store (`src/context/topic.ts`, bundled),
* the memory store (`src/context/memory.ts`, bundled),
* the context orchestrator (`src/context/manager.ts`), and
* the daemon's query handler (`src/daemon.ts`, bundled).

Modelling conventions: the estimator is embedded twice — once in exact
arithmetic (`estimateTokens`, used for cost bookkeeping) and once with
bit-exact IEEE-754 binary64 accumulation (`estimateTokensF`, values carried
as integer multiples of 2^-52 with round-to-nearest-even at 53 significant
bits, exactly what the JS `+=` does), since the two observably differ on
kana; wall-clock timestamps (`Date.now()`) are passed in as an explicit
`now : Nat` where a name depends on them and omitted from records where
nothing observable depends on them; file persistence (`save`/`load`) is
omitted — stores start from their empty in-memory shape; strings are Lean
strings (sequences of Unicode scalar values), matching the code-point
iteration the estimator performs via `codePointAt`; JS `toLowerCase()` is
modelled by ASCII lowercasing, and theorems that depend on case-insensitive
topic-name identity restrict to ASCII names where the two coincide.
-/

namespace ClaudeShell

/-! ## Token estimator (`estimateTokens` in src/context/tokens.ts) -/

/-- Hangul ranges, as in `isHangul` in the source. -/
def isHangul (c : Nat) : Bool :=
  (0xac00 ≤ c && c ≤ 0xd7af) || (0x3131 ≤ c && c ≤ 0x3163) || (0x1100 ≤ c && c ≤ 0x11ff)

/-- CJK ideograph ranges, as in `isCJK` in the source. -/
def isCJK (c : Nat) : Bool :=
  (0x4e00 ≤ c && c ≤ 0x9fff) || (0x3400 ≤ c && c ≤ 0x4dbf) || (0xf900 ≤ c && c ≤ 0xfaff)

/-- Kana ranges, as in `isKana` in the source. -/
def isKana (c : Nat) : Bool := (0x3040 ≤ c && c ≤ 0x309f) || (0x30a0 ≤ c && c ≤ 0x30ff)

/-- ASCII alphanumerics, as in `isAsciiAlnum` in the source. -/
def isAsciiAlnum (c : Nat) : Bool :=
  (0x30 ≤ c && c ≤ 0x39) || (0x41 ≤ c && c ≤ 0x5a) || (0x61 ≤ c && c ≤ 0x7a)

/-- Whitespace set of the estimator (`isWhitespace` in the source): space, LF, CR, TAB. -/
def isWhitespace (c : Nat) : Bool := c == 0x20 || c == 0x0a || c == 0x0d || c == 0x09

/-- The fixed code-punctuation set `CODE_PUNCT` from the source. -/
def CODE_PUNCT : List Nat :=
  [0x7b, 0x7d, 0x5b, 0x5d, 0x28, 0x29, 0x3b, 0x3a, 0x3d, 0x3c, 0x3e, 0x2f, 0x2a,
   0x2b, 0x2d, 0x26, 0x7c, 0x21, 0x3f, 0x2e, 0x2c, 0x27, 0x22, 0x60, 0x40, 0x23,
   0x25, 0x5e, 0x7e, 0x5c]

/-- The estimator's accumulation loop in EXACT arithmetic: the JS code
accumulates a `tokens` total plus two pending run counters (`asciiRun`,
`wsRun`); taking every increment at its nominal value (1.5 = 30/20,
1.2 = 24/20, 0.5 = 10/20, a flushed run of length n costs n/4 = 5n/20),
the total is a natural number of twentieths of a unit. A code point above
0xffff (a surrogate pair in JS, one `Char` here) costs 1.5 units once.
This is an idealization: the source's accumulator is an IEEE-754 binary64
double and the kana weight 1.2 is not exactly representable, so the
program's result can differ (see `estLoopF`, the bit-exact model, and the
C2 counterexample at 35 kana). The idealized total is what the rest of the
model uses for cost bookkeeping; the verified window/topic/memory
properties do not depend on the specific cost values. -/
def estLoop : Nat → Nat → Nat → List Char → Nat
  | tokens, asciiRun, wsRun, [] => tokens + asciiRun * 5 + wsRun * 5
  | tokens, asciiRun, wsRun, ch :: rest =>
    if 0xffff < ch.toNat then
      estLoop (tokens + asciiRun * 5 + wsRun * 5 + 30) 0 0 rest
    else if isHangul ch.toNat then
      estLoop (tokens + asciiRun * 5 + wsRun * 5 + 30) 0 0 rest
    else if isCJK ch.toNat then
      estLoop (tokens + asciiRun * 5 + wsRun * 5 + 30) 0 0 rest
    else if isKana ch.toNat then
      estLoop (tokens + asciiRun * 5 + wsRun * 5 + 24) 0 0 rest
    else if isAsciiAlnum ch.toNat then
      estLoop (tokens + wsRun * 5) (asciiRun + 1) 0 rest
    else if isWhitespace ch.toNat then
      estLoop (tokens + asciiRun * 5) 0 (wsRun + 1) rest
    else if CODE_PUNCT.contains ch.toNat then
      estLoop (tokens + asciiRun * 5 + wsRun * 5 + 10) 0 0 rest
    else
      estLoop (tokens + asciiRun * 5 + wsRun * 5 + 30) 0 0 rest

/-- `estimateTokens(text)` in exact arithmetic: early 0 for the empty
string, otherwise the ceiling of the exactly-accumulated total (in units);
with the total in twentieths, `Math.ceil(t/20)` is `(t + 19) / 20` in
natural division. The program's binary64 computation is `estimateTokensF`
below; the two provably agree on kana-free realistic text and diverge on
kana (C2). -/
def estimateTokens (text : String) : Nat :=
  if text.length = 0 then 0 else (estLoop 0 0 0 text.data + 19) / 20

/-- Cost of one code point in twentieths of a unit, reading off the
estimator's branch structure. -/
def charCost (ch : Char) : Nat :=
  if 0xffff < ch.toNat then 30
  else if isHangul ch.toNat then 30
  else if isCJK ch.toNat then 30
  else if isKana ch.toNat then 24
  else if isAsciiAlnum ch.toNat then 5
  else if isWhitespace ch.toNat then 5
  else if CODE_PUNCT.contains ch.toNat then 10
  else 30

/-- Per-character cost in units as the specification words it: Hangul and
CJK ideographs 1.5, Kana 1.2, Latin alphanumerics and whitespace 1/4 each
(a run of length n costs n/4), the fixed punctuation set 0.5, characters
above the 16-bit range 1.5 as a single unit, any other symbol 1.5. -/
def specCharCost (ch : Char) : ℚ :=
  if 0xffff < ch.toNat then 3/2
  else if isHangul ch.toNat then 3/2
  else if isCJK ch.toNat then 3/2
  else if isKana ch.toNat then 6/5
  else if isAsciiAlnum ch.toNat then 1/4
  else if isWhitespace ch.toNat then 1/4
  else if CODE_PUNCT.contains ch.toNat then 1/2
  else 3/2

lemma estLoop_eq (cps : List Char) :
    ∀ tokens asciiRun wsRun,
      estLoop tokens asciiRun wsRun cps =
        tokens + asciiRun * 5 + wsRun * 5 + (cps.map charCost).sum := by
  induction cps with
  | nil => intro t a w; simp [estLoop]
  | cons ch rest ih =>
    intro t a w
    simp only [estLoop, charCost, List.map_cons, List.sum_cons]
    split_ifs <;> rw [ih] <;> ring

lemma estimateTokens_eq_sum (s : String) :
    estimateTokens s = ((s.data.map charCost).sum + 19) / 20 := by
  unfold estimateTokens
  by_cases h : s.length = 0
  · have hd : s.data = [] := List.length_eq_zero.mp h
    simp [h, hd]
  · simp [h, estLoop_eq]

lemma charCost_cast (ch : Char) : (charCost ch : ℚ) = 20 * specCharCost ch := by
  unfold charCost specCharCost
  split_ifs <;> norm_num

lemma charCost_sum_cast (l : List Char) :
    ((l.map charCost).sum : ℚ) = 20 * (l.map specCharCost).sum := by
  induction l with
  | nil => simp
  | cons ch rest ih =>
    simp only [List.map_cons, List.sum_cons, Nat.cast_add, ih, charCost_cast]
    ring

lemma ceil_twentieths (n : Nat) : ⌈(n : ℚ) / 20⌉₊ = (n + 19) / 20 := by
  have h20 : (0 : ℚ) < 20 := by norm_num
  have hdm := Nat.div_add_mod (n + 19) 20
  have hlt : (n + 19) % 20 < 20 := Nat.mod_lt _ (by norm_num)
  apply le_antisymm
  · apply Nat.ceil_le.mpr
    rw [div_le_iff₀ h20]
    have : n ≤ (n + 19) / 20 * 20 := by omega
    exact_mod_cast this
  · rcases Nat.eq_zero_or_pos ((n + 19) / 20) with h | h
    · simp [h]
    · have hq : ((n + 19) / 20 - 1) * 20 < n := by omega
      have := Nat.lt_ceil.mpr (show (((n + 19) / 20 - 1 : Nat) : ℚ) < (n : ℚ) / 20 by
        rw [lt_div_iff₀ h20]
        exact_mod_cast hq)
      omega

/-- The exact-arithmetic estimator equals the ceiling of the spec's exact
per-character unit total. (This is a fact about the idealized model
`estimateTokens`; the source's binary64 accumulation, modelled below by
`estimateTokensF`, agrees with it on kana-free realistic text and diverges
on kana — see the C2 theorems.) -/
lemma estimateTokens_eq_ceil_spec (s : String) :
    estimateTokens s = ⌈(s.data.map specCharCost).sum⌉₊ := by
  rw [estimateTokens_eq_sum, ← ceil_twentieths]
  congr 1
  rw [charCost_sum_cast]
  field_simp

/-! ### Binary64-faithful estimator

The JS `tokens` accumulator is an IEEE-754 binary64 double. Every reachable
accumulator value is a nonnegative integer multiple of 2^-52 (the addends
are: quarters `run/4`, halves 0.5, 1.5, and the double nearest 1.2, all
multiples of 2^-52; a sum of such values is again one, and rounding a
multiple of 2^-52 that is not exactly representable only happens at or
above 1, where the result's ulp is at least 2^-52). Values are therefore
carried as naturals `n` meaning `n / 2^52`, and each `+=` is the exact
integer sum followed by IEEE round-to-nearest (ties to even) at 53
significant bits. This is bit-exact binary64 for all values in the normal
range, i.e. for any input a JS engine can hold. -/

/-- Number of binary digits of `n`, fuel-based so it evaluates in the
kernel (fuel `n` always suffices since `n < 2^n`). -/
def bitLenAux : Nat → Nat → Nat
  | 0, _ => 0
  | fuel + 1, n => if n = 0 then 0 else bitLenAux fuel (n / 2) + 1

/-- Number of binary digits of `n` (`0` for `0`). -/
def bitLen (n : Nat) : Nat := bitLenAux n n

lemma bitLenAux_spec : ∀ fuel n, 0 < n → n < 2 ^ fuel →
    2 ^ (bitLenAux fuel n - 1) ≤ n ∧ n < 2 ^ bitLenAux fuel n := by
  intro fuel
  induction fuel with
  | zero =>
    intro n h0 h1
    simp only [pow_zero] at h1
    omega
  | succ fuel ih =>
    intro n h0 h1
    have hp : (2 : Nat) ^ (fuel + 1) = 2 * 2 ^ fuel := by rw [pow_succ]; ring
    rw [bitLenAux, if_neg (by omega)]
    by_cases hone : n = 1
    · subst hone
      have hz : bitLenAux fuel (1 / 2) = 0 := by
        cases fuel <;> simp [bitLenAux]
      rw [hz]
      norm_num
    · have hrec := ih (n / 2) (by omega) (by omega)
      set b := bitLenAux fuel (n / 2) with hb
      rcases Nat.eq_zero_or_pos b with hb0 | hb1
      · rw [hb0] at hrec
        simp only [pow_zero] at hrec
        omega
      · have h2b : (2 : Nat) ^ b = 2 * 2 ^ (b - 1) := by
          conv_lhs => rw [show b = (b - 1) + 1 by omega]
          rw [pow_succ]
          ring
        have h2b1 : (2 : Nat) ^ (b + 1) = 2 * 2 ^ b := by rw [pow_succ]; ring
        simp only [Nat.add_sub_cancel]
        omega

lemma bitLen_spec (n : Nat) (h : 0 < n) :
    2 ^ (bitLen n - 1) ≤ n ∧ n < 2 ^ bitLen n :=
  bitLenAux_spec n n h (Nat.lt_two_pow n)

lemma bitLen_le_of_lt {n k : Nat} (h : n < 2 ^ k) : bitLen n ≤ k := by
  rcases Nat.eq_zero_or_pos n with h0 | h0
  · subst h0
    simp [bitLen, bitLenAux]
  · by_contra hc
    push_neg at hc
    have hs := (bitLen_spec n h0).1
    have hm : (2 : Nat) ^ k ≤ 2 ^ (bitLen n - 1) :=
      Nat.pow_le_pow_right (by norm_num) (by omega)
    omega

lemma bitLen_gt_of_le {n k : Nat} (h : 2 ^ k ≤ n) : k < bitLen n := by
  have h0 : 0 < n := lt_of_lt_of_le (Nat.pos_pow_of_pos k (by norm_num)) h
  have hs := (bitLen_spec n h0).2
  by_contra hc
  push_neg at hc
  have hm : (2 : Nat) ^ bitLen n ≤ 2 ^ k := Nat.pow_le_pow_right (by norm_num) hc
  omega

/-- IEEE-754 round to 53 significant bits, to nearest, ties to even — the
binary64 rounding each JS `+=` applies to the exact sum. Values below 2^53
(in 2^-52 units: below 2) are returned unchanged; otherwise the low
`bitLen n - 53` bits are rounded off. -/
def roundSig (n : Nat) : Nat :=
  if n < 2 ^ 53 then n
  else if 2 ^ (bitLen n - 53 - 1) < n % 2 ^ (bitLen n - 53) ∨
      (n % 2 ^ (bitLen n - 53) = 2 ^ (bitLen n - 53 - 1) ∧
        (n / 2 ^ (bitLen n - 53)) % 2 = 1) then
    (n / 2 ^ (bitLen n - 53) + 1) * 2 ^ (bitLen n - 53)
  else n / 2 ^ (bitLen n - 53) * 2 ^ (bitLen n - 53)

/-- One binary64 addition: exact integer sum, then rounding. -/
def fadd (a b : Nat) : Nat := roundSig (a + b)

/-- Rounding is the identity on exactly representable values (at most 53
significant bits): in particular on `m * 2^t` with `m < 2^53`. -/
lemma roundSig_exact (m t : Nat) (hm : m < 2 ^ 53) :
    roundSig (m * 2 ^ t) = m * 2 ^ t := by
  unfold roundSig
  split
  · rfl
  · next hge =>
    push_neg at hge
    have hub : m * 2 ^ t < 2 ^ (53 + t) := by
      rw [pow_add]
      exact mul_lt_mul_of_pos_right hm (by positivity)
    have hbl : bitLen (m * 2 ^ t) ≤ 53 + t := bitLen_le_of_lt hub
    have hbg : 53 < bitLen (m * 2 ^ t) := bitLen_gt_of_le hge
    have hshift : bitLen (m * 2 ^ t) - 53 ≤ t := by omega
    have hdvd : 2 ^ (bitLen (m * 2 ^ t) - 53) ∣ m * 2 ^ t :=
      Dvd.dvd.mul_left (pow_dvd_pow 2 hshift) m
    have hlow : m * 2 ^ t % 2 ^ (bitLen (m * 2 ^ t) - 53) = 0 :=
      Nat.mod_eq_zero_of_dvd hdvd
    rw [hlow]
    have hhalf : 0 < 2 ^ (bitLen (m * 2 ^ t) - 53 - 1) := by positivity
    rw [if_neg (by
      rintro (hlt | ⟨heq, _⟩)
      · omega
      · omega)]
    exact Nat.div_mul_cancel hdvd

/-- 1.5 · 2^52 (1.5 is exactly representable in binary64). -/
def F_1_5 : Nat := 3 * 2 ^ 51

/-- The binary64 double nearest to the literal 1.2, in units of 2^-52.
1.2 is not exactly representable; this is the value the source actually
adds per kana character. -/
def F_1_2 : Nat := 5404319552844595

/-- 0.5 · 2^52 (exactly representable). -/
def F_0_5 : Nat := 2 ^ 51

/-- `flushRuns()` of the source in binary64: up to two guarded additions,
the ascii run first. `run / 4` is itself exact in binary64 (a quarter whose
numerator is the run length, exact for any run a JS string can produce),
contributing `run * 2^50` in 2^-52 units. -/
def flushF (tokens asciiRun wsRun : Nat) : Nat :=
  let t1 := if 0 < asciiRun then fadd tokens (asciiRun * 2 ^ 50) else tokens
  if 0 < wsRun then fadd t1 (wsRun * 2 ^ 50) else t1

/-- The estimator's accumulation loop with binary64 addition, mirroring the
source statement by statement (each `tokens +=` is one `fadd`). -/
def estLoopF : Nat → Nat → Nat → List Char → Nat
  | tokens, asciiRun, wsRun, [] => flushF tokens asciiRun wsRun
  | tokens, asciiRun, wsRun, ch :: rest =>
    if 0xffff < ch.toNat then
      estLoopF (fadd (flushF tokens asciiRun wsRun) F_1_5) 0 0 rest
    else if isHangul ch.toNat then
      estLoopF (fadd (flushF tokens asciiRun wsRun) F_1_5) 0 0 rest
    else if isCJK ch.toNat then
      estLoopF (fadd (flushF tokens asciiRun wsRun) F_1_5) 0 0 rest
    else if isKana ch.toNat then
      estLoopF (fadd (flushF tokens asciiRun wsRun) F_1_2) 0 0 rest
    else if isAsciiAlnum ch.toNat then
      estLoopF (if 0 < wsRun then fadd tokens (wsRun * 2 ^ 50) else tokens)
        (asciiRun + 1) 0 rest
    else if isWhitespace ch.toNat then
      estLoopF (if 0 < asciiRun then fadd tokens (asciiRun * 2 ^ 50) else tokens)
        0 (wsRun + 1) rest
    else if CODE_PUNCT.contains ch.toNat then
      estLoopF (fadd (flushF tokens asciiRun wsRun) F_0_5) 0 0 rest
    else
      estLoopF (fadd (flushF tokens asciiRun wsRun) F_1_5) 0 0 rest

/-- `estimateTokens(text)` as the program computes it: binary64
accumulation, then `Math.ceil` (exact on the final dyadic value `n/2^52`). -/
def estimateTokensF (text : String) : Nat :=
  if text.length = 0 then 0
  else (estLoopF 0 0 0 text.data + (2 ^ 52 - 1)) / 2 ^ 52

/-- Per-character cost in quarter units for the classes whose weights are
quarter-multiples (everything except kana): ascii/whitespace 1 (0.25),
punctuation 2 (0.5), all 1.5-unit classes 6. The kana branch value is
irrelevant — the exactness results below hypothesize kana-free text. -/
def charCostQ (ch : Char) : Nat :=
  if 0xffff < ch.toNat then 6
  else if isHangul ch.toNat then 6
  else if isCJK ch.toNat then 6
  else if isKana ch.toNat then 0
  else if isAsciiAlnum ch.toNat then 1
  else if isWhitespace ch.toNat then 1
  else if CODE_PUNCT.contains ch.toNat then 2
  else 6

lemma charCostQ_le_six (c : Char) : charCostQ c ≤ 6 := by
  unfold charCostQ
  split_ifs <;> norm_num

lemma sum_charCostQ_le (l : List Char) : (l.map charCostQ).sum ≤ 6 * l.length := by
  induction l with
  | nil => simp
  | cons c rest ih =>
    simp only [List.map_cons, List.sum_cons, List.length_cons]
    have := charCostQ_le_six c
    omega

lemma charCost_eq_five_quarters (c : Char) (hk : isKana c.toNat = false) :
    charCost c = 5 * charCostQ c := by
  unfold charCost charCostQ
  simp only [hk, Bool.false_eq_true, if_false]
  split_ifs <;> norm_num

lemma charCost_sum_eq_five (l : List Char) (hk : ∀ c ∈ l, isKana c.toNat = false) :
    (l.map charCost).sum = 5 * (l.map charCostQ).sum := by
  induction l with
  | nil => simp
  | cons c rest ih =>
    simp only [List.map_cons, List.sum_cons]
    rw [charCost_eq_five_quarters c (hk c (by simp)), ih (fun x hx => hk x (by simp [hx]))]
    ring

lemma fadd_quarters (x y : Nat) (h : x + y < 2 ^ 53) :
    fadd (x * 2 ^ 50) (y * 2 ^ 50) = (x + y) * 2 ^ 50 := by
  unfold fadd
  rw [← Nat.add_mul]
  exact roundSig_exact (x + y) 50 h

/-- A single guarded run flush (`if (run > 0) tokens += run / 4`) is exact
on quarter-multiples within range. -/
lemma guardFlush_exact (q r : Nat) (h : q + r < 2 ^ 53) :
    (if 0 < r then fadd (q * 2 ^ 50) (r * 2 ^ 50) else q * 2 ^ 50) = (q + r) * 2 ^ 50 := by
  split_ifs with hr
  · exact fadd_quarters q r h
  · congr 1
    omega

lemma flushF_exact (q a w : Nat) (h : q + a + w < 2 ^ 53) :
    flushF (q * 2 ^ 50) a w = (q + a + w) * 2 ^ 50 := by
  simp only [flushF]
  rw [guardFlush_exact q a (by omega), guardFlush_exact (q + a) w (by omega)]

lemma estLoopF_exact (cps : List Char) (hk : ∀ c ∈ cps, isKana c.toNat = false) :
    ∀ q a w : Nat, q + a + w + (cps.map charCostQ).sum < 2 ^ 53 →
      estLoopF (q * 2 ^ 50) a w cps =
        (q + a + w + (cps.map charCostQ).sum) * 2 ^ 50 := by
  induction cps with
  | nil =>
    intro q a w hb
    simp only [estLoopF, List.map_nil, List.sum_nil, Nat.add_zero]
    exact flushF_exact q a w (by omega)
  | cons ch rest ih =>
    intro q a w hb
    have hkh : isKana ch.toNat = false := hk ch (by simp)
    have hkr : ∀ c ∈ rest, isKana c.toNat = false := fun c hc => hk c (by simp [hc])
    rw [List.map_cons, List.sum_cons] at hb
    simp only [estLoopF, hkh, Bool.false_eq_true, if_false, List.map_cons, List.sum_cons]
    rw [guardFlush_exact q w (by have := charCostQ_le_six ch; omega),
      guardFlush_exact q a (by have := charCostQ_le_six ch; omega)]
    split_ifs with h1 h2 h3 h4 h5 h6
    · have hcq : charCostQ ch = 6 := by
        unfold charCostQ
        rw [if_pos h1]
      rw [hcq] at hb ⊢
      rw [flushF_exact q a w (by omega),
        show F_1_5 = 6 * 2 ^ 50 by norm_num [F_1_5],
        fadd_quarters (q + a + w) 6 (by omega), ih hkr (q + a + w + 6) 0 0 (by omega)]
      congr 1
      omega
    · have hcq : charCostQ ch = 6 := by
        unfold charCostQ
        rw [if_neg h1, if_pos h2]
      rw [hcq] at hb ⊢
      rw [flushF_exact q a w (by omega),
        show F_1_5 = 6 * 2 ^ 50 by norm_num [F_1_5],
        fadd_quarters (q + a + w) 6 (by omega), ih hkr (q + a + w + 6) 0 0 (by omega)]
      congr 1
      omega
    · have hcq : charCostQ ch = 6 := by
        unfold charCostQ
        rw [if_neg h1, if_neg h2, if_pos h3]
      rw [hcq] at hb ⊢
      rw [flushF_exact q a w (by omega),
        show F_1_5 = 6 * 2 ^ 50 by norm_num [F_1_5],
        fadd_quarters (q + a + w) 6 (by omega), ih hkr (q + a + w + 6) 0 0 (by omega)]
      congr 1
      omega
    · -- ascii-alphanumeric branch
      have hcq : charCostQ ch = 1 := by
        unfold charCostQ
        rw [if_neg h1, if_neg h2, if_neg h3, if_neg (by simp [hkh]), if_pos h4]
      rw [hcq] at hb ⊢
      rw [ih hkr (q + w) (a + 1) 0 (by omega)]
      congr 1
      omega
    · -- whitespace branch
      have hcq : charCostQ ch = 1 := by
        unfold charCostQ
        rw [if_neg h1, if_neg h2, if_neg h3, if_neg (by simp [hkh]), if_neg h4, if_pos h5]
      rw [hcq] at hb ⊢
      rw [ih hkr (q + a) 0 (w + 1) (by omega)]
      congr 1
      omega
    · -- punctuation branch
      have hcq : charCostQ ch = 2 := by
        unfold charCostQ
        rw [if_neg h1, if_neg h2, if_neg h3, if_neg (by simp [hkh]), if_neg h4, if_neg h5,
          if_pos h6]
      rw [hcq] at hb ⊢
      rw [flushF_exact q a w (by omega),
        show F_0_5 = 2 * 2 ^ 50 by norm_num [F_0_5],
        fadd_quarters (q + a + w) 2 (by omega), ih hkr (q + a + w + 2) 0 0 (by omega)]
      congr 1
      omega
    · have hcq : charCostQ ch = 6 := by
        unfold charCostQ
        rw [if_neg h1, if_neg h2, if_neg h3, if_neg (by simp [hkh]), if_neg h4, if_neg h5,
          if_neg h6]
      rw [hcq] at hb ⊢
      rw [flushF_exact q a w (by omega),
        show F_1_5 = 6 * 2 ^ 50 by norm_num [F_1_5],
        fadd_quarters (q + a + w) 6 (by omega), ih hkr (q + a + w + 6) 0 0 (by omega)]
      congr 1
      omega

lemma ceilF_eq_ceil_twentieths (S : Nat) :
    (S * 2 ^ 50 + (2 ^ 52 - 1)) / 2 ^ 52 = (5 * S + 19) / 20 := by
  omega

set_option maxRecDepth 8000 in
/-- C2 counterexample: on 35 kana characters the program (binary64
accumulation, bit-exact model) returns `Math.ceil(42.000000000000014) = 43`,
while the ceiling of the exact accumulated total — what the claim states
the function returns — is 42. -/
theorem estimator_float_kana_counterexample :
    estimateTokensF (String.mk (List.replicate 35 'あ')) = 43 ∧
    ⌈((String.mk (List.replicate 35 'あ')).data.map specCharCost).sum⌉₊ = 42 := by
  constructor
  · decide
  · rw [← estimateTokens_eq_ceil_spec]
    decide

/-- C2 as amended: the estimator is a pure `String → Nat` function pinning
`estimate("") = 0`, `estimate("aaaa") = 1`, `estimate("가") = 2`, whose
result is the ceiling of the binary64-accumulated per-character total; for
text containing no kana — the only class whose weight 1.2 is not exactly
representable — and of any realistic length (≤ 2^49 characters) the
accumulation is exact and the result is exactly the ceiling of the exact
per-character unit total the specification describes. -/
theorem estimator_float_matches_spec :
    estimateTokensF "" = 0 ∧ estimateTokensF "aaaa" = 1 ∧ estimateTokensF "가" = 2 ∧
    ∀ s : String, (∀ c ∈ s.data, isKana c.toNat = false) → s.data.length ≤ 2 ^ 49 →
      estimateTokensF s = ⌈(s.data.map specCharCost).sum⌉₊ := by
  refine ⟨by decide, by decide, by decide, fun s hk hlen => ?_⟩
  rw [← estimateTokens_eq_ceil_spec]
  unfold estimateTokensF estimateTokens
  by_cases h0 : s.length = 0
  · simp [h0]
  · rw [if_neg h0, if_neg h0]
    have hb : 0 + 0 + 0 + (s.data.map charCostQ).sum < 2 ^ 53 := by
      have h1 := sum_charCostQ_le s.data
      have h2 : 6 * s.data.length ≤ 6 * 2 ^ 49 := by omega
      norm_num at h2 ⊢
      omega
    have hloop := estLoopF_exact s.data hk 0 0 0 hb
    rw [Nat.zero_mul] at hloop
    rw [hloop, estLoop_eq, charCost_sum_eq_five s.data hk]
    simp only [Nat.zero_add, Nat.zero_mul, Nat.add_zero]
    exact ceilF_eq_ceil_twentieths _

/-- Witness for C2's amended theorem at a concrete kana-free string. -/
theorem estimator_float_matches_spec_witness :
    (∀ c ∈ ("hello, world!").data, isKana c.toNat = false) ∧
    ("hello, world!").data.length ≤ 2 ^ 49 ∧
    estimateTokensF "hello, world!" = ⌈(("hello, world!").data.map specCharCost).sum⌉₊ := by
  refine ⟨by decide, by decide, ?_⟩
  exact estimator_float_matches_spec.2.2.2 "hello, world!" (by decide) (by decide)

/-! ## Conversation window (`Window` in src/context/window.ts) -/

/-- Turn role (`"user" | "assistant"`). -/
inductive Role where
  | user
  | assistant
deriving DecidableEq

/-- A window turn. The source also stores a `ts: Date.now()` timestamp,
which nothing observable depends on; it is omitted here. -/
structure Turn where
  role : Role
  content : String
  tokens : Nat
deriving DecidableEq

/-- Sum of the stored per-turn costs of a list of turns. -/
def sumTokens (l : List Turn) : Nat := (l.map Turn.tokens).sum

/-- The window state: `turns`, the configured budget `maxTokens`, and the
running total `currentTokens` (a JS number in the source, so carried as an
integer here; the source clamps it with `Math.max(0, ·)` after trimming). -/
structure Window where
  turns : List Turn
  maxTokens : Nat
  currentTokens : Int
deriving DecidableEq

/-- A fresh window (`new Window(maxTokens)`). -/
def Window.init (maxTokens : Nat) : Window :=
  { turns := [], maxTokens := maxTokens, currentTokens := 0 }

/-- `Window.addTurn(role, content)`: append a turn with its estimated cost
and maintain the running total. -/
def Window.addTurn (w : Window) (role : Role) (content : String) : Window :=
  let tokens := estimateTokens content
  { w with
    turns := w.turns ++ [{ role := role, content := content, tokens := tokens }],
    currentTokens := w.currentTokens + tokens }

/-- The `while` loop of `Window.trimIfNeeded()`: while the running total
exceeds the budget and more than 2 turns remain, shift the two oldest turns
off the front, subtracting their costs. Returns (remaining turns, running
total, evicted turns in eviction order). -/
def trimLoop (maxTokens : Nat) : List Turn → Int → List Turn × Int × List Turn
  | u :: a :: x :: rest, current =>
    if (maxTokens : Int) < current then
      let r := trimLoop maxTokens (x :: rest) (current - u.tokens - a.tokens)
      (r.1, r.2.1, u :: a :: r.2.2)
    else (u :: a :: x :: rest, current, [])
  | turns, current => (turns, current, [])

/-- `Window.trimIfNeeded()`: run the eviction loop, clamp the running total
at 0, and return the evicted turns. -/
def Window.trimIfNeeded (w : Window) : Window × List Turn :=
  let r := trimLoop w.maxTokens w.turns w.currentTokens
  ({ w with turns := r.1, currentTokens := max 0 r.2.1 }, r.2.2)

/-- `Window.count()`: number of complete pairs, `Math.floor(turns.length / 2)`. -/
def Window.count (w : Window) : Nat := w.turns.length / 2

/-- `Window.clear()`. -/
def Window.clear (w : Window) : Window := { w with turns := [], currentTokens := 0 }

/-- `Window.isEmpty()`. -/
def Window.isEmpty (w : Window) : Bool := w.turns.length == 0

/-- `Window.estimateTokens()`: the maintained running total. -/
def Window.estimateTokens (w : Window) : Int := w.currentTokens

/-! ### Lemmas about the trim loop -/

lemma trimLoop_decomp (maxT : Nat) (turns : List Turn) (current : Int) :
    turns = (trimLoop maxT turns current).2.2 ++ (trimLoop maxT turns current).1 := by
  induction turns, current using trimLoop.induct maxT with
  | case1 u a x rest current h ih =>
    simp only [trimLoop, if_pos h]
    simpa using ih
  | case2 u a x rest current h => simp [trimLoop, h]
  | case3 turns current h => simp [trimLoop]

lemma trimLoop_evicted_even (maxT : Nat) (turns : List Turn) (current : Int) :
    (trimLoop maxT turns current).2.2.length % 2 = 0 := by
  induction turns, current using trimLoop.induct maxT with
  | case1 u a x rest current h ih =>
    simp only [trimLoop, if_pos h, List.length_cons]
    omega
  | case2 u a x rest current h => simp [trimLoop, h]
  | case3 turns current h => simp [trimLoop]

lemma trimLoop_post (maxT : Nat) (turns : List Turn) (current : Int) :
    (trimLoop maxT turns current).2.1 ≤ (maxT : Int) ∨
      (trimLoop maxT turns current).1.length ≤ 2 := by
  induction turns, current using trimLoop.induct maxT with
  | case1 u a x rest current h ih =>
    simp only [trimLoop, if_pos h]
    exact ih
  | case2 u a x rest current h =>
    simp only [trimLoop, if_neg h]
    omega
  | case3 turns current h =>
    rcases turns with _ | ⟨u, _ | ⟨a, _ | ⟨x, rest⟩⟩⟩
    · simp [trimLoop]
    · simp [trimLoop]
    · simp [trimLoop]
    · exact absurd rfl (h u a x rest)

lemma trimLoop_sum (maxT : Nat) (turns : List Turn) (current : Int)
    (hc : current = (sumTokens turns : Int)) :
    (trimLoop maxT turns current).2.1 = (sumTokens (trimLoop maxT turns current).1 : Int) := by
  induction turns, current using trimLoop.induct maxT with
  | case1 u a x rest current h ih =>
    simp only [trimLoop, if_pos h]
    apply ih
    simp only [sumTokens, List.map_cons, List.sum_cons] at hc ⊢
    push_cast at hc ⊢
    omega
  | case2 u a x rest current h => simpa [trimLoop, h] using hc
  | case3 turns current h => simpa [trimLoop] using hc

lemma trimLoop_noop (maxT : Nat) (turns : List Turn) (current : Int)
    (h : current ≤ (maxT : Int) ∨ turns.length ≤ 2) :
    trimLoop maxT turns current = (turns, current, []) := by
  rcases turns with _ | ⟨u, _ | ⟨a, _ | ⟨x, rest⟩⟩⟩
  · simp [trimLoop]
  · simp [trimLoop]
  · simp [trimLoop]
  · have hc : current ≤ (maxT : Int) := by
      rcases h with h | h
      · exact h
      · simp at h
    simp [trimLoop, not_lt.mpr hc]

lemma trimLoop_keeps_last (maxT : Nat) (turns : List Turn) (current : Int)
    (h : turns ≠ []) : (trimLoop maxT turns current).1 ≠ [] := by
  induction turns, current using trimLoop.induct maxT with
  | case1 u a x rest current hlt ih =>
    simp only [trimLoop, if_pos hlt]
    exact ih (by simp)
  | case2 u a x rest current hlt => simp [trimLoop, hlt]
  | case3 turns current hne => simpa [trimLoop] using h

lemma trimLoop_nil_evicted (maxT : Nat) (turns : List Turn) (current : Int)
    (h : (trimLoop maxT turns current).2.2 = []) :
    trimLoop maxT turns current = (turns, current, []) := by
  rcases turns with _ | ⟨u, _ | ⟨a, _ | ⟨x, rest⟩⟩⟩
  · simp [trimLoop]
  · simp [trimLoop]
  · simp [trimLoop]
  · by_cases hc : (maxT : Int) < current
    · exfalso
      simp [trimLoop, hc] at h
    · simp [trimLoop, hc]

/-- Helper shared by the idempotence results: a window that has just been
trimmed is left exactly as is (and nothing is evicted) by a second trim. -/
lemma trim_second_noop (w : Window) :
    (w.trimIfNeeded.1).trimIfNeeded = (w.trimIfNeeded.1, []) := by
  unfold Window.trimIfNeeded
  have hpost := trimLoop_post w.maxTokens w.turns w.currentTokens
  set r := trimLoop w.maxTokens w.turns w.currentTokens with hr
  have hno : trimLoop w.maxTokens r.1 (max 0 r.2.1) = (r.1, max 0 r.2.1, []) := by
    apply trimLoop_noop
    rcases hpost with h | h
    · left
      exact max_le (by positivity) h
    · right
      exact h
  simp only [hno]
  congr 1
  simp [max_comm, max_left_comm, max_self]

/-! ### Window call sequences -/

/-- One raw call on a window: `addTurn`, `trimIfNeeded` (discarding the
returned evicted turns), or `clear`. -/
inductive WinOp where
  | add (role : Role) (content : String)
  | trim
  | clear

/-- Apply one call. -/
def applyWinOp (w : Window) : WinOp → Window
  | .add role content => w.addTurn role content
  | .trim => w.trimIfNeeded.1
  | .clear => w.clear

/-- Run a call sequence on a fresh window with the given budget. -/
def runWinOps (budget : Nat) (ops : List WinOp) : Window :=
  ops.foldl applyWinOp (Window.init budget)

/-- The exact-accounting invariant: the running total equals the sum of the
stored costs of the turns currently held. -/
def Window.Exact (w : Window) : Prop := w.currentTokens = (sumTokens w.turns : Int)

lemma exact_addTurn (w : Window) (role : Role) (content : String) (h : w.Exact) :
    (w.addTurn role content).Exact := by
  simp only [Window.Exact, Window.addTurn, sumTokens, List.map_append, List.sum_append,
    List.map_cons, List.map_nil, List.sum_cons, List.sum_nil] at h ⊢
  rw [h]
  push_cast
  ring

lemma exact_trim (w : Window) (h : w.Exact) : (w.trimIfNeeded.1).Exact := by
  simp only [Window.Exact, Window.trimIfNeeded] at h ⊢
  have hs := trimLoop_sum w.maxTokens w.turns w.currentTokens h
  rw [hs]
  exact max_eq_right (by positivity)

lemma exact_clear (w : Window) : w.clear.Exact := by
  simp [Window.Exact, Window.clear, sumTokens]

lemma exact_applyWinOp (w : Window) (op : WinOp) (h : w.Exact) : (applyWinOp w op).Exact := by
  cases op with
  | add role content => exact exact_addTurn w role content h
  | trim => exact exact_trim w h
  | clear => exact exact_clear w

lemma exact_runWinOps (budget : Nat) (ops : List WinOp) : (runWinOps budget ops).Exact := by
  suffices h : ∀ w : Window, w.Exact → (ops.foldl applyWinOp w).Exact by
    exact h _ (by simp [Window.Exact, Window.init, sumTokens])
  induction ops with
  | nil => intro w h; exact h
  | cons op rest ih =>
    intro w h
    exact ih _ (exact_applyWinOp w op h)

/-- C10: after every sequence of `addTurn`, `trimIfNeeded` and `clear`
calls on a fresh window, the maintained running total reported by
`Window.estimateTokens()` equals the sum of the per-turn estimated costs of
exactly the turns currently held (hence 0 when the buffer is empty, since
the empty sum is 0). -/
theorem window_token_accounting (budget : Nat) (ops : List WinOp) :
    (runWinOps budget ops).estimateTokens = (sumTokens (runWinOps budget ops).turns : Int) :=
  exact_runWinOps budget ops

/-- C4: `trimIfNeeded` is idempotent — immediately re-trimming any window
evicts nothing and leaves contents and running total unchanged. -/
theorem trim_idempotent (w : Window) :
    (w.trimIfNeeded.1).trimIfNeeded = (w.trimIfNeeded.1, []) :=
  trim_second_noop w

/-! ### Windows built from user/assistant pairs -/

/-- One orchestrator-level call on a window: a user/assistant pair of
`addTurn`s (as `ContextManager.addTurn` performs), a trim, or a clear. -/
inductive PairOp where
  | addPair (userMsg assistantMsg : String)
  | trim
  | clear

/-- Apply one pair-discipline call. -/
def applyPairOp (w : Window) : PairOp → Window
  | .addPair u a => (w.addTurn .user u).addTurn .assistant a
  | .trim => w.trimIfNeeded.1
  | .clear => w.clear

/-- Run a pair-discipline call sequence on a fresh window. -/
def runPairOps (budget : Nat) (ops : List PairOp) : Window :=
  ops.foldl applyPairOp (Window.init budget)

lemma trim_even (w : Window) :
    w.trimIfNeeded.1.turns.length % 2 = w.turns.length % 2 := by
  simp only [Window.trimIfNeeded]
  have hd := trimLoop_decomp w.maxTokens w.turns w.currentTokens
  have he := trimLoop_evicted_even w.maxTokens w.turns w.currentTokens
  conv_rhs => rw [hd]
  simp only [List.length_append]
  omega

lemma applyPairOp_even (w : Window) (op : PairOp) (h : w.turns.length % 2 = 0) :
    (applyPairOp w op).turns.length % 2 = 0 := by
  cases op with
  | addPair u a =>
    simp only [applyPairOp, Window.addTurn, List.length_append, List.length_cons,
      List.length_nil]
    omega
  | trim => rw [applyPairOp, trim_even]; exact h
  | clear => simp [applyPairOp, Window.clear]

lemma even_runPairOps (budget : Nat) (ops : List PairOp) :
    (runPairOps budget ops).turns.length % 2 = 0 := by
  suffices h : ∀ w : Window, w.turns.length % 2 = 0 → (ops.foldl applyPairOp w).turns.length % 2 = 0 by
    exact h _ (by simp [Window.init])
  induction ops with
  | nil => intro w h; exact h
  | cons op rest ih =>
    intro w h
    exact ih _ (applyPairOp_even w op h)

lemma exact_applyPairOp (w : Window) (op : PairOp) (h : w.Exact) : (applyPairOp w op).Exact := by
  cases op with
  | addPair u a => exact exact_addTurn _ _ _ (exact_addTurn w _ _ h)
  | trim => exact exact_trim w h
  | clear => exact exact_clear w

lemma exact_runPairOps (budget : Nat) (ops : List PairOp) : (runPairOps budget ops).Exact := by
  suffices h : ∀ w : Window, w.Exact → (ops.foldl applyPairOp w).Exact by
    exact h _ (by simp [Window.Exact, Window.init, sumTokens])
  induction ops with
  | nil => intro w h; exact h
  | cons op rest ih =>
    intro w h
    exact ih _ (exact_applyPairOp w op h)

lemma maxTokens_runPairOps (budget : Nat) (ops : List PairOp) :
    (runPairOps budget ops).maxTokens = budget := by
  suffices h : ∀ w : Window, (ops.foldl applyPairOp w).maxTokens = w.maxTokens by
    exact h (Window.init budget)
  induction ops with
  | nil => intro w; rfl
  | cons op rest ih =>
    intro w
    rw [List.foldl_cons, ih]
    cases op <;> simp [applyPairOp, Window.addTurn, Window.clear, Window.trimIfNeeded]

/-- C3: on any window reached by user/assistant pair additions (with any
interleaved trims and clears), a single `trimIfNeeded()` call leaves either
a total estimated cost within the configured budget or exactly one
turn-pair; the kept turns are a suffix of the previous turns (only the
oldest are evicted) and the most recent exchange always survives: a
non-empty window stays non-empty even if its last pair alone exceeds the
budget. -/
theorem trim_budget_containment (budget : Nat) (ops : List PairOp) :
    ((runPairOps budget ops).trimIfNeeded.1.currentTokens ≤ (budget : Int) ∨
      (runPairOps budget ops).trimIfNeeded.1.turns.length = 2) ∧
    (runPairOps budget ops).turns =
      (runPairOps budget ops).trimIfNeeded.2 ++ (runPairOps budget ops).trimIfNeeded.1.turns ∧
    ((runPairOps budget ops).turns ≠ [] → (runPairOps budget ops).trimIfNeeded.1.turns ≠ []) := by
  set w := runPairOps budget ops with hw
  have hmax : w.maxTokens = budget := maxTokens_runPairOps budget ops
  have hexact : w.Exact := exact_runPairOps budget ops
  have heven : w.turns.length % 2 = 0 := even_runPairOps budget ops
  have heven' : w.trimIfNeeded.1.turns.length % 2 = 0 := by
    rw [trim_even]; exact heven
  have hsum := trimLoop_sum w.maxTokens w.turns w.currentTokens hexact
  have hpost := trimLoop_post w.maxTokens w.turns w.currentTokens
  refine ⟨?_, ?_, ?_⟩
  · rcases hpost with h | h
    · left
      simp only [Window.trimIfNeeded]
      rw [← hmax]
      exact max_le (by positivity) h
    · -- at most 2 turns remain; with evenness, 0 or 2
      simp only [Window.trimIfNeeded] at heven' ⊢
      interval_cases hlen : (trimLoop w.maxTokens w.turns w.currentTokens).1.length
      · -- empty: total is the empty sum, 0
        left
        rw [hsum]
        have : (trimLoop w.maxTokens w.turns w.currentTokens).1 = [] :=
          List.length_eq_zero.mp hlen
        simp [this, sumTokens, max_self]
      · omega
      · right; rfl
  · simpa only [Window.trimIfNeeded] using trimLoop_decomp w.maxTokens w.turns w.currentTokens
  · intro hne
    simpa only [Window.trimIfNeeded] using
      trimLoop_keeps_last w.maxTokens w.turns w.currentTokens hne

/-- Witness for C3 at a concrete input: budget 0, one pair each costing 1
token; nothing can be evicted, so exactly the one (over-budget) pair
remains. -/
theorem trim_budget_containment_witness :
    ((runPairOps 0 [PairOp.addPair "aaaa" "aaaa"]).trimIfNeeded.1.currentTokens ≤ (0 : Int) ∨
      (runPairOps 0 [PairOp.addPair "aaaa" "aaaa"]).trimIfNeeded.1.turns.length = 2) ∧
    (runPairOps 0 [PairOp.addPair "aaaa" "aaaa"]).turns =
      (runPairOps 0 [PairOp.addPair "aaaa" "aaaa"]).trimIfNeeded.2 ++
        (runPairOps 0 [PairOp.addPair "aaaa" "aaaa"]).trimIfNeeded.1.turns ∧
    ((runPairOps 0 [PairOp.addPair "aaaa" "aaaa"]).turns ≠ [] →
      (runPairOps 0 [PairOp.addPair "aaaa" "aaaa"]).trimIfNeeded.1.turns ≠ []) :=
  trim_budget_containment 0 [PairOp.addPair "aaaa" "aaaa"]

/-! ### C5: count and parity -/

/-- Run a sequence of raw `addTurn` calls on a fresh window. -/
def runAdds (budget : Nat) (adds : List (Role × String)) : Window :=
  adds.foldl (fun w rc => w.addTurn rc.1 rc.2) (Window.init budget)

lemma runAdds_length (budget : Nat) (adds : List (Role × String)) :
    (runAdds budget adds).turns.length = adds.length := by
  suffices h : ∀ w : Window,
      (adds.foldl (fun w rc => w.addTurn rc.1 rc.2) w).turns.length =
        w.turns.length + adds.length by
    simpa [Window.init] using h (Window.init budget)
  induction adds with
  | nil => intro w; simp
  | cons rc rest ih =>
    intro w
    rw [List.foldl_cons, ih]
    simp only [Window.addTurn, List.length_append, List.length_cons, List.length_nil]
    omega

/-- C5 counterexample: the claim "the window never holds an odd number of
turns after a `trimIfNeeded()` call completes" fails for a call sequence of
a single `addTurn`: one turn (an odd count) remains after the trim. -/
theorem trim_after_odd_addTurn_leaves_odd :
    ((runAdds 2500 [(Role.user, "hi")]).trimIfNeeded.1.turns.length) % 2 = 1 := by
  decide

/-- C5 as amended: for every sequence of `addTurn` calls, `Window.count()`
equals `floor(total turns added / 2)`; and `trimIfNeeded()` always evicts
an even number of turns, preserving the parity of the turn count — so a
window holding an even count (as under the orchestrator's user/assistant
pair discipline) never holds an odd count after a trim completes. -/
theorem count_floor_and_trim_parity :
    (∀ (budget : Nat) (adds : List (Role × String)),
      (runAdds budget adds).count = adds.length / 2) ∧
    (∀ w : Window, w.trimIfNeeded.1.turns.length % 2 = w.turns.length % 2) := by
  constructor
  · intro budget adds
    rw [Window.count, runAdds_length]
  · exact trim_even

/-! ## Topic store (`TopicManager` in src/context/topic.ts)

The store is its in-memory `topics` array (file persistence and the
memoized prompt cache are not modelled; the store starts empty). `MAX_TOPICS`
lives in `types.ts`, pinned to 10 by the repository's README ("대화 요약
저장소 (최대 10개)") and by the spec. -/

/-- Topic capacity (`MAX_TOPICS` in types.ts). -/
def MAX_TOPICS : Nat := 10

/-- A stored topic. The source also stores a `ts: Date.now()` timestamp
used only for display in `buildPrompt`; it is omitted here. -/
structure Topic where
  name : String
  summary : String
  tokens : Nat
deriving DecidableEq

/-- Character-wise ASCII lowercasing, the semantics of `Char.toLower`
mapped over the string (written out over the character list so it evaluates
in the kernel). JS `toLowerCase()` additionally lowercases non-ASCII
letters (e.g. Ä → ä), which this model does not. For the memory store's
keyword tests this is harmless on every input: the only simple non-ASCII
case mappings into ASCII (U+212A → k, and U+0130 → i with a combining dot)
cannot complete any of the seven ASCII keywords. For case-insensitive
topic-name identity (`addManual` upsert, `get`) the model agrees with the
source exactly on ASCII names, and theorems that depend on that identity
restrict to ASCII names. -/
def strLower (s : String) : String := String.mk (s.data.map Char.toLower)

/-- All characters ASCII: the domain on which `strLower` coincides with JS
`toLowerCase()`. -/
def isAsciiStr (s : String) : Bool := s.data.all (fun c => c.toNat ≤ 0x7f)

/-- JS `\s` whitespace class (used by `generateName`'s `split(/\s+/)`). -/
def isJsSpace (c : Char) : Bool :=
  c.toNat == 0x20 || c.toNat == 0x09 || c.toNat == 0x0a || c.toNat == 0x0b ||
  c.toNat == 0x0c || c.toNat == 0x0d || c.toNat == 0xa0 || c.toNat == 0x1680 ||
  (0x2000 ≤ c.toNat && c.toNat ≤ 0x200a) || c.toNat == 0x2028 || c.toNat == 0x2029 ||
  c.toNat == 0x202f || c.toNat == 0x205f || c.toNat == 0x3000 || c.toNat == 0xfeff

/-- The character class kept by `generateName`'s
`replace(/[^a-zA-Z가-힣0-9\s]/g, "")`. -/
def isNameKeptChar (c : Char) : Bool :=
  ('a' ≤ c && c ≤ 'z') || ('A' ≤ c && c ≤ 'Z') || ('0' ≤ c && c ≤ '9') ||
  (0xac00 ≤ c.toNat && c.toNat ≤ 0xd7a3) || isJsSpace c

/-- `generateName(turns)`: keyword name from the first user turn, else a
timestamp fallback (`Date.now()` passed in as `now`). -/
def generateName (turns : List Turn) (now : Nat) : String :=
  match turns.find? (fun t => t.role == Role.user) with
  | none => s!"topic-{now}"
  | some firstUser =>
    let words :=
      (((String.mk (firstUser.content.data.filter isNameKeptChar)).split isJsSpace).filter
        (fun w => 2 < w.length)).take 3
    if 0 < words.length then String.intercalate "-" words else s!"topic-{now}"

/-- `content.slice(0, n).replace(/\n/g, " ")` on a preview of a turn. -/
def preview (content : String) (n : Nat) : String :=
  String.mk ((content.data.take n).map (fun c => if c = '\n' then ' ' else c))

/-- The `summaryParts` loop of `addFromTurns`: turns paired in order, odd
leftovers skipped, each pair rendered with 60/80-char previews. -/
def summaryParts : List Turn → List String
  | u :: a :: rest =>
    (let q := preview u.content 60
     let ans := preview a.content 80
     s!"Q: {q}... → A: {ans}...") :: summaryParts rest
  | _ => []

/-- The summary string: parts joined by the fixed separator. -/
def buildSummaryStr (turns : List Turn) : String :=
  String.intercalate " | " (summaryParts turns)

/-- The topic built by `addFromTurns(turns, name?)`. -/
def topicFromTurns (turns : List Turn) (name? : Option String) (now : Nat) : Topic :=
  let summary := buildSummaryStr turns
  { name := name?.getD (generateName turns now),
    summary := summary,
    tokens := estimateTokens summary }

/-- The `while (topics.length > MAX_TOPICS) topics.shift()` eviction loop. -/
def evictOldest : List Topic → List Topic
  | [] => []
  | t :: rest => if MAX_TOPICS < (t :: rest).length then evictOldest rest else t :: rest

/-- `TopicManager.addFromTurns(turns, name?)`: always pushes a new topic,
then evicts the oldest while over capacity. -/
def addFromTurns (topics : List Topic) (turns : List Turn) (name? : Option String)
    (now : Nat) : List Topic × Topic :=
  let topic := topicFromTurns turns name? now
  (evictOldest (topics ++ [topic]), topic)

/-- `TopicManager.addManual(name, summary)`: upsert by case-insensitive
name, then evict the oldest while over capacity. The case-insensitive match
is modelled by `strLower`, which agrees with the source's `toLowerCase()`
comparison exactly for ASCII names (a non-ASCII case-variant name, e.g.
"ä" against a stored "Ä", upserts in the source but not here — retention
theorems therefore restrict to ASCII names). -/
def addManual (topics : List Topic) (name summary : String) : List Topic × Topic :=
  let topic : Topic := { name := name, summary := summary, tokens := estimateTokens summary }
  let l :=
    match topics.findIdx? (fun t => strLower t.name == strLower name) with
    | some i => topics.set i topic
    | none => topics ++ [topic]
  (evictOldest l, topic)

/-- `TopicManager.get(name)`: case-insensitive lookup (via `strLower`, so
faithful on ASCII names; a non-ASCII case-variant lookup the source's
`toLowerCase()` would resolve is missed here). -/
def topicsGet (topics : List Topic) (name : String) : Option Topic :=
  topics.find? (fun t => strLower t.name == strLower name)

/-! ### Topic insert sequences -/

/-- One insert call on the topic store. -/
inductive TopicOp where
  | fromTurns (turns : List Turn) (name? : Option String) (now : Nat)
  | manual (name summary : String)

/-- The topic an insert call constructs. -/
def insertedTopic : TopicOp → Topic
  | .fromTurns turns name? now => topicFromTurns turns name? now
  | .manual name summary => { name := name, summary := summary, tokens := estimateTokens summary }

/-- Apply one insert call to the store. -/
def applyTopicOp (topics : List Topic) : TopicOp → List Topic
  | .fromTurns turns name? now => (addFromTurns topics turns name? now).1
  | .manual name summary => (addManual topics name summary).1

/-- Run an insert sequence on a fresh (empty) store. -/
def runTopicOps (ops : List TopicOp) : List Topic :=
  ops.foldl applyTopicOp []

/-- The case-insensitive identity `addManual` upserts by. -/
def nameKey (t : Topic) : String := strLower t.name

/-- The suffix of the `MAX_TOPICS` most recently inserted topics. -/
def lastTen (l : List Topic) : List Topic := l.drop (l.length - MAX_TOPICS)

lemma evictOldest_eq_drop (l : List Topic) :
    evictOldest l = l.drop (l.length - MAX_TOPICS) := by
  induction l with
  | nil => simp [evictOldest]
  | cons t rest ih =>
    rw [evictOldest]
    by_cases h : MAX_TOPICS < (t :: rest).length
    · rw [if_pos h, ih]
      simp only [List.length_cons] at h ⊢
      have harith : rest.length + 1 - MAX_TOPICS = (rest.length - MAX_TOPICS) + 1 := by
        unfold MAX_TOPICS at h ⊢
        omega
      rw [harith, List.drop_succ_cons]
    · rw [if_neg h]
      simp only [List.length_cons, not_lt] at h
      have : rest.length + 1 - MAX_TOPICS = 0 := by omega
      simp [this]

lemma evictOldest_length_le (l : List Topic) : (evictOldest l).length ≤ MAX_TOPICS := by
  rw [evictOldest_eq_drop]
  simp only [List.length_drop]
  omega

lemma applyTopicOp_length_le (topics : List Topic) (op : TopicOp) :
    (applyTopicOp topics op).length ≤ MAX_TOPICS := by
  cases op with
  | fromTurns turns name? now => exact evictOldest_length_le _
  | manual name summary =>
    simp only [applyTopicOp, addManual]
    exact evictOldest_length_le _

lemma runTopicOps_length_le (ops : List TopicOp) : (runTopicOps ops).length ≤ MAX_TOPICS := by
  suffices h : ∀ start : List Topic,
      (ops.foldl applyTopicOp start).length ≤ max start.length MAX_TOPICS by
    simpa using h []
  induction ops with
  | nil => intro start; simp
  | cons op rest ih =>
    intro start
    rw [List.foldl_cons]
    calc (rest.foldl applyTopicOp (applyTopicOp start op)).length
        ≤ max (applyTopicOp start op).length MAX_TOPICS := ih _
      _ ≤ max start.length MAX_TOPICS := by
          have := applyTopicOp_length_le start op
          omega

lemma push_lastTen (done : List Topic) (t : Topic) :
    evictOldest (lastTen done ++ [t]) = lastTen (done ++ [t]) := by
  rw [evictOldest_eq_drop]
  unfold lastTen
  have h1 : done.drop (done.length - MAX_TOPICS) ++ [t] =
      (done ++ [t]).drop (done.length - MAX_TOPICS) :=
    (List.drop_append_of_le_length (by omega)).symm
  rw [h1, List.drop_drop]
  congr 1
  simp only [List.length_drop, List.length_append, List.length_cons, List.length_nil]
  unfold MAX_TOPICS
  omega

lemma findIdx?_none_of {α : Type} (p : α → Bool) (l : List α) (h : ∀ x ∈ l, p x = false) :
    l.findIdx? p = none :=
  List.findIdx?_eq_none_iff.mpr h

lemma applyTopicOp_fresh (done : List Topic) (op : TopicOp)
    (h : nameKey (insertedTopic op) ∉ (lastTen done).map nameKey) :
    applyTopicOp (lastTen done) op = lastTen (done ++ [insertedTopic op]) := by
  cases op with
  | fromTurns turns name? now => exact push_lastTen done _
  | manual name summary =>
    simp only [applyTopicOp, addManual]
    have hnone : (lastTen done).findIdx? (fun t => strLower t.name == strLower name) = none := by
      apply findIdx?_none_of
      intro x hx
      simp only [beq_eq_false_iff_ne, ne_eq]
      intro hcontra
      apply h
      simp only [List.mem_map]
      exact ⟨x, hx, by simpa [nameKey, insertedTopic] using hcontra⟩
    rw [hnone]
    exact push_lastTen done _

lemma runTopic_aux (ops : List TopicOp) :
    ∀ done : List Topic,
      ((done ++ ops.map insertedTopic).map nameKey).Nodup →
      ops.foldl applyTopicOp (lastTen done) = lastTen (done ++ ops.map insertedTopic) := by
  induction ops with
  | nil => intro done _; simp
  | cons op rest ih =>
    intro done hnodup
    have hmem : nameKey (insertedTopic op) ∉ (lastTen done).map nameKey := by
      intro hmem
      rw [List.map_append, List.nodup_append] at hnodup
      refine hnodup.2.2 ?_ (show nameKey (insertedTopic op) ∈
        ((op :: rest).map insertedTopic).map nameKey by simp)
      -- membership in `lastTen done` names implies membership in `done` names
      rcases List.mem_map.mp hmem with ⟨x, hx, hxeq⟩
      exact hxeq ▸ List.mem_map_of_mem nameKey (List.mem_of_mem_drop hx)
    rw [List.foldl_cons, applyTopicOp_fresh done op hmem,
      ih (done ++ [insertedTopic op]) (by simpa [List.append_assoc] using hnodup)]
    simp [List.append_assoc]

/-- C6: after any sequence of inserts (`addFromTurns` or `addManual`) on a
fresh store, at most `MAX_TOPICS` (10) topics are held; and when the
inserted names are ASCII (the domain on which the model's case-insensitive
identity coincides with the source's `toLowerCase()` comparison) and
pairwise case-insensitively distinct — so every call genuinely inserts
rather than upserting in place — the retained topics are exactly the 10
most recently inserted in insertion order: eviction is strictly
oldest-first FIFO. -/
theorem topic_capacity_fifo (ops : List TopicOp) :
    (runTopicOps ops).length ≤ MAX_TOPICS ∧
    ((∀ op ∈ ops, isAsciiStr (insertedTopic op).name = true) →
      ((ops.map insertedTopic).map nameKey).Nodup →
      runTopicOps ops = (ops.map insertedTopic).drop (ops.length - MAX_TOPICS)) := by
  refine ⟨runTopicOps_length_le ops, fun _ h => ?_⟩
  have := runTopic_aux ops [] (by simpa using h)
  simpa [runTopicOps, lastTen] using this

/-- The twelve uniquely named inserts of the claim's example. -/
def twelveInserts : List TopicOp :=
  [TopicOp.manual "n01" "s", TopicOp.manual "n02" "s", TopicOp.manual "n03" "s",
   TopicOp.manual "n04" "s", TopicOp.manual "n05" "s", TopicOp.manual "n06" "s",
   TopicOp.manual "n07" "s", TopicOp.manual "n08" "s", TopicOp.manual "n09" "s",
   TopicOp.manual "n10" "s", TopicOp.manual "n11" "s", TopicOp.manual "n12" "s"]

/-- Witness for C6: inserting 12 uniquely (ASCII-)named topics retains
exactly insertions 3 through 12 and discards 1 and 2. -/
theorem topic_capacity_fifo_witness :
    (runTopicOps twelveInserts).length ≤ MAX_TOPICS ∧
    runTopicOps twelveInserts = (twelveInserts.map insertedTopic).drop 2 := by
  have h := topic_capacity_fifo twelveInserts
  exact ⟨h.1, by simpa using h.2 (by decide) (by decide)⟩

/-! ## Memory store (`Memory` in src/context/memory.ts)

The store is its in-memory `MemoryStore` record (file persistence is not
modelled; a fresh store starts from the empty shape, as `load()` does for a
missing or corrupt file). -/

/-- `MAX_RECENT_WORK` from the source. -/
def MAX_RECENT_WORK : Nat := 10

/-- The `MemoryStore` shape (`project` is a string-keyed record, carried as
an association list; `remember` never touches it). -/
structure MemoryStore where
  project : List (String × String)
  conventions : List String
  decisions : List String
  recentWork : List String
deriving DecidableEq

/-- The empty store shape. -/
def emptyMemory : MemoryStore :=
  { project := [], conventions := [], decisions := [], recentWork := [] }

/-- Whether `sub` occurs at the head of `l`. -/
def leadsWith : List Char → List Char → Bool
  | [], _ => true
  | _ :: _, [] => false
  | a :: as, b :: bs => a == b && leadsWith as bs

/-- Whether `sub` occurs anywhere in `l`. -/
def occursIn (sub : List Char) : List Char → Bool
  | [] => leadsWith sub []
  | c :: rest => leadsWith sub (c :: rest) || occursIn sub rest

/-- JS `s.includes(sub)`: substring containment. -/
def strIncludes (s sub : String) : Bool := occursIn sub.data s.data

/-- The convention-keyword test of `remember`:
`lower.includes("convention") || lower.includes("rule") ||
 lower.includes("always") || lower.includes("never")`. -/
def isConvFact (fact : String) : Bool :=
  strIncludes (strLower fact) "convention" || strIncludes (strLower fact) "rule" ||
  strIncludes (strLower fact) "always" || strIncludes (strLower fact) "never"

/-- The decision-keyword test of `remember`:
`lower.includes("decided") || lower.includes("decision") || lower.includes("chose")`. -/
def isDecFact (fact : String) : Bool :=
  strIncludes (strLower fact) "decided" || strIncludes (strLower fact) "decision" ||
  strIncludes (strLower fact) "chose"

/-- `Memory.remember(fact)`: keyword classification into conventions (exact
dedup) / decisions (exact dedup) / recent work (push, then a single shift
when over `MAX_RECENT_WORK`). -/
def remember (m : MemoryStore) (fact : String) : MemoryStore :=
  if isConvFact fact then
    if m.conventions.contains fact then m
    else { m with conventions := m.conventions ++ [fact] }
  else if isDecFact fact then
    if m.decisions.contains fact then m
    else { m with decisions := m.decisions ++ [fact] }
  else
    let rw := m.recentWork ++ [fact]
    { m with recentWork := if MAX_RECENT_WORK < rw.length then rw.tail else rw }

/-- C7: `remember` classifies by case-insensitive keyword — a fact with a
convention keyword is appended to `conventions` unless already present
verbatim (other sections untouched); otherwise a fact with a decision
keyword is appended to `decisions` unless already present (other sections
untouched); any other fact is appended to `recentWork`, which under its
capacity invariant holds at most 10 entries with oldest-first eviction; and
duplicate-free `conventions`/`decisions` stay duplicate-free. -/
theorem remember_classification (m : MemoryStore) (fact : String) :
    (isConvFact fact = true →
      (remember m fact).conventions =
        (if m.conventions.contains fact then m.conventions else m.conventions ++ [fact]) ∧
      (remember m fact).decisions = m.decisions ∧
      (remember m fact).recentWork = m.recentWork) ∧
    (isConvFact fact = false → isDecFact fact = true →
      (remember m fact).decisions =
        (if m.decisions.contains fact then m.decisions else m.decisions ++ [fact]) ∧
      (remember m fact).conventions = m.conventions ∧
      (remember m fact).recentWork = m.recentWork) ∧
    (isConvFact fact = false → isDecFact fact = false →
      m.recentWork.length ≤ MAX_RECENT_WORK →
      (remember m fact).recentWork =
        (m.recentWork ++ [fact]).drop (m.recentWork.length + 1 - MAX_RECENT_WORK) ∧
      (remember m fact).recentWork.length ≤ MAX_RECENT_WORK ∧
      (remember m fact).conventions = m.conventions ∧
      (remember m fact).decisions = m.decisions) ∧
    (m.conventions.Nodup → (remember m fact).conventions.Nodup) ∧
    (m.decisions.Nodup → (remember m fact).decisions.Nodup) := by
  refine ⟨?_, ?_, ?_, ?_, ?_⟩
  · intro hc
    simp only [remember, hc, if_true]
    split <;> simp
  · intro hc hd
    simp only [remember, hc, hd, Bool.false_eq_true, if_false, if_true]
    split <;> simp
  · intro hc hd hlen
    simp only [remember, hc, hd, Bool.false_eq_true, if_false]
    have hlen1 : (m.recentWork ++ [fact]).length = m.recentWork.length + 1 := by simp
    unfold MAX_RECENT_WORK at hlen ⊢
    refine ⟨?_, ?_, by trivial, by trivial⟩
    · split
      · next hgt =>
        rw [hlen1] at hgt
        have h1 : m.recentWork.length + 1 - 10 = 1 := by omega
        rw [h1, ← List.drop_one]
      · next hle =>
        rw [hlen1, not_lt] at hle
        have h0 : m.recentWork.length + 1 - 10 = 0 := by omega
        rw [h0, List.drop_zero]
    · split
      · next hgt =>
        rw [hlen1] at hgt
        simp only [List.length_tail, hlen1]
        omega
      · next hle =>
        rw [hlen1, not_lt] at hle
        rw [hlen1]
        omega
  · intro hnd
    simp only [remember]
    split
    · split
      · exact hnd
      · next hnc =>
        have hmem : fact ∉ m.conventions := by simpa using hnc
        rw [List.nodup_append]
        refine ⟨hnd, List.nodup_singleton fact, fun a ha hb => ?_⟩
        rw [List.mem_singleton] at hb
        subst hb
        exact hmem ha
    · split
      · split <;> exact hnd
      · exact hnd
  · intro hnd
    simp only [remember]
    split
    · split <;> exact hnd
    · split
      · split
        · exact hnd
        · next hnc =>
          have hmem : fact ∉ m.decisions := by simpa using hnc
          rw [List.nodup_append]
          refine ⟨hnd, List.nodup_singleton fact, fun a ha hb => ?_⟩
          rw [List.mem_singleton] at hb
          subst hb
          exact hmem ha
      · exact hnd

/-- Witness for C7 at the claim's three example facts on a fresh store. -/
theorem remember_classification_witness :
    (remember emptyMemory "Always use 4-space indent").conventions =
      ["Always use 4-space indent"] ∧
    (remember emptyMemory "Decided to use PostgreSQL").decisions =
      ["Decided to use PostgreSQL"] ∧
    (remember emptyMemory "Added login page").recentWork = ["Added login page"] := by
  refine ⟨?_, ?_, ?_⟩
  · rw [((remember_classification emptyMemory "Always use 4-space indent").1 (by decide)).1]
    decide
  · rw [((remember_classification emptyMemory "Decided to use PostgreSQL").2.1
      (by decide) (by decide)).1]
    decide
  · rw [((remember_classification emptyMemory "Added login page").2.2.1
      (by decide) (by decide) (by decide)).1]
    decide

/-! ## Context orchestrator (`ContextManager` in src/context/manager.ts)

The orchestrator owns the memory store, the window, the topic store, the
monotonic `turnCount` and the `sessionDirty` flag. The composed system
prompt string is a pure read of the stores plus the ambient shell-state
file; no verified claim inspects it, so `build` is modelled by its state
effect and its `needsNewSession` result. The constructor takes the window
share of the budget directly (`budget.window` in the source). -/

structure ContextManager where
  memory : MemoryStore
  window : Window
  topics : List Topic
  turnCount : Nat
  sessionDirty : Bool
deriving DecidableEq

/-- A fresh orchestrator (`new ContextManager(budget)`), with empty stores. -/
def ContextManager.init (windowBudget : Nat) : ContextManager :=
  { memory := emptyMemory, window := Window.init windowBudget, topics := [],
    turnCount := 0, sessionDirty := false }

/-- `ContextManager.build()`: trim the window; evicted turns are summarized
into a topic and set the dirty flag; snapshot `needsNewSession` from the
flag; clear the flag after composing. Returns the new state and
`needsNewSession`. -/
def ContextManager.build (cm : ContextManager) (now : Nat) : ContextManager × Bool :=
  let r := cm.window.trimIfNeeded
  let topics1 := if 0 < r.2.length then (addFromTurns cm.topics r.2 none now).1 else cm.topics
  let dirty1 := if 0 < r.2.length then true else cm.sessionDirty
  ({ cm with window := r.1, topics := topics1, sessionDirty := false }, dirty1)

/-- `ContextManager.addTurn(user, assistant)`: append both turns to the
window and bump `turnCount`. -/
def ContextManager.addTurn (cm : ContextManager) (userMsg assistantMsg : String) :
    ContextManager :=
  { cm with
    window := (cm.window.addTurn .user userMsg).addTurn .assistant assistantMsg,
    turnCount := cm.turnCount + 1 }

/-- `ContextManager.compact()`: if the window is non-empty, snapshot its
turns into a time-named topic, clear the window and set the dirty flag;
otherwise do nothing. -/
def ContextManager.compact (cm : ContextManager) (now : Nat) : ContextManager :=
  if 0 < cm.window.turns.length then
    { cm with
      topics := (addFromTurns cm.topics cm.window.turns (some s!"compact-{now}") now).1,
      window := cm.window.clear,
      sessionDirty := true }
  else cm

/-- `ContextManager.clearWindow()`. -/
def ContextManager.clearWindow (cm : ContextManager) : ContextManager :=
  { cm with window := cm.window.clear, sessionDirty := true }

/-- `ContextManager.clearAll()`. -/
def ContextManager.clearAll (cm : ContextManager) : ContextManager :=
  { cm with
    window := cm.window.clear,
    topics := [],
    memory := emptyMemory,
    sessionDirty := true }

/-- `ContextManager.switchTopic(name)`: if the window is non-empty, save it
as an auto-named topic and clear it; the dirty flag is set in every case.
The passed name is only echoed in the daemon's reply, never stored. -/
def ContextManager.switchTopic (cm : ContextManager) ( _name : String) (now : Nat) :
    ContextManager × Option String :=
  if 0 < cm.window.turns.length then
    let r := addFromTurns cm.topics cm.window.turns none now
    ({ cm with topics := r.1, window := cm.window.clear, sessionDirty := true }, some r.2.name)
  else ({ cm with sessionDirty := true }, none)

/-- `ContextManager.recallTopic(name)`: case-insensitive lookup; on a hit,
set the dirty flag and return the stored summary; on a miss, change
nothing. -/
def ContextManager.recallTopic (cm : ContextManager) (name : String) :
    ContextManager × Option String :=
  match topicsGet cm.topics name with
  | none => (cm, none)
  | some t => ({ cm with sessionDirty := true }, some t.summary)

/-- C1 counterexample: `compact()` on an orchestrator whose window is empty
leaves the dirty flag `false` (the source sets it only inside
`if (turns.length > 0)`), and the next `build()` reports
`needsNewSession == false` — against the claim that every `compact()` in a
call sequence leaves `dirty == true` and makes the next `build()` report
`true`. (`recallTopic` of an unknown name fails the claim the same way.) -/
theorem compact_on_empty_window_not_dirty :
    ((ContextManager.init 2500).compact 0).sessionDirty = false ∧
    (((ContextManager.init 2500).compact 0).build 0).2 = false := by
  decide

/-- C1 as amended: `clearWindow()`, `clearAll()` and `switchTopic()` always
leave `dirty == true`; `compact()` does so whenever the window is
non-empty, `recallTopic()` whenever the name resolves, and an evicting trim
inside `build()` makes that `build()` report `needsNewSession == true`.
Whenever the flag is set, the next `build()` reports `true` and clears the
flag, and a second `build()` immediately after (no intervening mutation)
reports `needsNewSession == false`. -/
theorem dirty_flag_contract (cm : ContextManager) (name : String) (now now2 : Nat) :
    cm.clearWindow.sessionDirty = true ∧
    cm.clearAll.sessionDirty = true ∧
    (cm.switchTopic name now).1.sessionDirty = true ∧
    (cm.window.turns ≠ [] → (cm.compact now).sessionDirty = true) ∧
    ((topicsGet cm.topics name).isSome = true →
      (cm.recallTopic name).1.sessionDirty = true) ∧
    (cm.window.trimIfNeeded.2 ≠ [] → (cm.build now).2 = true) ∧
    (cm.sessionDirty = true → (cm.build now).2 = true) ∧
    (cm.build now).1.sessionDirty = false ∧
    (((cm.build now).1.build now2).2 = false) := by
  refine ⟨rfl, rfl, ?_, ?_, ?_, ?_, ?_, rfl, ?_⟩
  · unfold ContextManager.switchTopic
    split <;> rfl
  · intro hne
    unfold ContextManager.compact
    rw [if_pos (by simpa [List.length_pos] using hne)]
  · intro hsome
    unfold ContextManager.recallTopic
    rcases h : topicsGet cm.topics name with _ | t
    · rw [h] at hsome
      simp at hsome
    · rfl
  · intro hne
    simp only [ContextManager.build]
    rw [if_pos (by simpa [List.length_pos] using hne)]
  · intro hdirty
    simp only [ContextManager.build]
    split
    · rfl
    · exact hdirty
  · simp only [ContextManager.build]
    rw [trim_second_noop cm.window]
    simp

/-- A concrete orchestrator for the C1 witness: window budget 1 with two
turn-pairs of cost 1 each (so the next trim evicts), a stored topic named
"auth", and the dirty flag set. -/
def cmWitness : ContextManager :=
  { ((ContextManager.init 1).addTurn "aaaa" "aaaa").addTurn "aaaa" "aaaa" with
    topics := [{ name := "auth", summary := "sum", tokens := 1 }],
    sessionDirty := true }

/-- Witness for C1 at `cmWitness`: every mutating operation leaves the flag
set, the (evicting) build reports a new session, clears the flag, and the
immediately following build reports `false`. -/
theorem dirty_flag_contract_witness :
    cmWitness.clearWindow.sessionDirty = true ∧
    cmWitness.clearAll.sessionDirty = true ∧
    (cmWitness.switchTopic "auth" 0).1.sessionDirty = true ∧
    (cmWitness.compact 0).sessionDirty = true ∧
    (cmWitness.recallTopic "auth").1.sessionDirty = true ∧
    (cmWitness.build 0).2 = true ∧
    (cmWitness.build 0).1.sessionDirty = false ∧
    ((cmWitness.build 0).1.build 0).2 = false := by
  have h := dirty_flag_contract cmWitness "auth" 0 0
  exact ⟨h.1, h.2.1, h.2.2.1, h.2.2.2.1 (by decide), h.2.2.2.2.1 (by decide),
    h.2.2.2.2.2.1 (by decide), h.2.2.2.2.2.2.2.1, h.2.2.2.2.2.2.2.2⟩

/-! ## Daemon query handling (`handleQuery` in src/daemon.ts)

The daemon's per-process state is the `queryInProgress` single-flight flag
and the orchestrator (`currentSessionId` is only echoed in status replies
and not modelled). The remote backend call is abstracted by its outcome:
either the awaited stream completes, yielding the relayed frames and the
accumulated assistant text, or it throws, with the abort flag telling a
cooperative cancellation apart from a failure. The composed prompt (with
the ephemeral `commandContext` fragment) feeds only the backend call, and
the post-success memory-extraction pass is an asynchronous fire-and-forget
side call; neither is modelled. -/

/-- Daemon→client protocol frames used by the query path. -/
inductive Frame where
  | text (content : String)
  | toolUse (tool input : String)
  | info (message : String)
  | error (message : String)
  | done
deriving DecidableEq

/-- Outcome of the awaited backend stream. -/
inductive QueryOutcome where
  | success (streamed : List Frame) (assistantText : String)
  | failure (aborted : Bool) (message : String)

/-- Daemon per-process state. -/
structure DaemonState where
  queryInProgress : Bool
  manager : ContextManager
deriving DecidableEq

/-- The busy-rejection message of `handleQuery`. -/
def busyMessage : String := "Another query is in progress. Please wait."

/-- `handleQuery`: reject with busy `{error}` + `{done}` when a query is in
flight; otherwise build the context (which may trim and summarize), run the
backend call, commit the turn only on success, report a non-aborted throw
as `{error}` and an aborted one as cancellation `{info}`, and always finish
with `{done}` after clearing the in-flight flag. -/
def handleQuery (st : DaemonState) (userMessage : String) (now : Nat)
    (outcome : QueryOutcome) : DaemonState × List Frame :=
  if st.queryInProgress then
    (st, [Frame.error busyMessage, Frame.done])
  else
    let b := st.manager.build now
    match outcome with
    | .success streamed assistantText =>
      ({ queryInProgress := false, manager := b.1.addTurn userMessage assistantText },
        streamed ++ [Frame.done])
    | .failure aborted message =>
      ({ queryInProgress := false, manager := b.1 },
        [if aborted then Frame.info "Query cancelled." else Frame.error message, Frame.done])

/-- C9: a query request arriving while another is in flight is answered
with an immediate busy `{error}` followed by `{done}`; the state — flag,
window, topics, memory, dirty flag, turn count — is returned untouched, and
the reply does not depend on any backend outcome (no backend call is
attempted). -/
theorem busy_rejection (st : DaemonState) (userMessage : String) (now : Nat)
    (outcome : QueryOutcome) (h : st.queryInProgress = true) :
    handleQuery st userMessage now outcome = (st, [Frame.error busyMessage, Frame.done]) := by
  simp [handleQuery, h]

/-- A concrete busy daemon state for the C9 witness. -/
def stBusy : DaemonState :=
  { queryInProgress := true, manager := ContextManager.init 2500 }

/-- Witness for C9 at `stBusy`, with a would-be successful outcome: the
reply is exactly busy `{error}` + `{done}` and the state is unchanged. -/
theorem busy_rejection_witness :
    handleQuery stBusy "hello" 0 (QueryOutcome.success [Frame.text "hi"] "hi") =
      (stBusy, [Frame.error busyMessage, Frame.done]) :=
  busy_rejection stBusy "hello" 0 (QueryOutcome.success [Frame.text "hi"] "hi") rfl

/-- A daemon state whose window (budget 1) holds two turn-pairs of cost 1
each, so the context build at query acceptance evicts a pair. -/
def stOver : DaemonState :=
  { queryInProgress := false,
    manager := ((ContextManager.init 1).addTurn "aaaa" "aaaa").addTurn "aaaa" "aaaa" }

/-- C8 counterexample: a non-cancellation backend failure does emit
`{error}` then `{done}` and records no turn, but Window and Topics are NOT
always unchanged relative to query acceptance: at `stOver` the build
performed at acceptance evicts the oldest pair into a new topic, so after
the failed query the topic count went from 0 to 1 and the window lost two
turns. -/
theorem backend_failure_after_evicting_build_changes_topics :
    stOver.manager.topics.length = 0 ∧
    (handleQuery stOver "q" 0 (QueryOutcome.failure false "boom")).2 =
      [Frame.error "boom", Frame.done] ∧
    (handleQuery stOver "q" 0 (QueryOutcome.failure false "boom")).1.manager.topics.length = 1 ∧
    (handleQuery stOver "q" 0 (QueryOutcome.failure false "boom")).1.manager.window.turns ≠
      stOver.manager.window.turns := by
  decide

/-- C8 as amended: on a non-cancellation backend failure the daemon emits
exactly `{error}` + `{done}`, records no turn (`turnCount` unchanged),
leaves Memory unchanged, and leaves the context in exactly the state
produced by the `build()` at acceptance — so whenever that build evicted
nothing (window within budget, non-negative running total), Window and
Topics are unchanged. -/
theorem backend_failure_frames_and_state (st : DaemonState) (userMessage : String)
    (now : Nat) (message : String) (hidle : st.queryInProgress = false) :
    (handleQuery st userMessage now (QueryOutcome.failure false message)).2 =
      [Frame.error message, Frame.done] ∧
    (handleQuery st userMessage now (QueryOutcome.failure false message)).1.manager =
      (st.manager.build now).1 ∧
    (handleQuery st userMessage now (QueryOutcome.failure false message)).1.manager.turnCount =
      st.manager.turnCount ∧
    (handleQuery st userMessage now (QueryOutcome.failure false message)).1.manager.memory =
      st.manager.memory ∧
    (st.manager.window.trimIfNeeded.2 = [] → 0 ≤ st.manager.window.currentTokens →
      (handleQuery st userMessage now (QueryOutcome.failure false message)).1.manager.window =
        st.manager.window ∧
      (handleQuery st userMessage now (QueryOutcome.failure false message)).1.manager.topics =
        st.manager.topics) := by
  simp only [handleQuery, hidle, Bool.false_eq_true, if_false]
  refine ⟨by trivial, by trivial, by trivial, by trivial, fun hnoev hnonneg => ?_⟩
  have hnoev' :
      (trimLoop st.manager.window.maxTokens st.manager.window.turns
        st.manager.window.currentTokens).2.2 = [] := by
    simpa [Window.trimIfNeeded] using hnoev
  have heq := trimLoop_nil_evicted st.manager.window.maxTokens st.manager.window.turns
    st.manager.window.currentTokens hnoev'
  have hwin : st.manager.window.trimIfNeeded.1 = st.manager.window := by
    simp only [Window.trimIfNeeded, heq, max_eq_right hnonneg]
  constructor
  · show (st.manager.build now).1.window = st.manager.window
    simp only [ContextManager.build, hwin]
  · show (st.manager.build now).1.topics = st.manager.topics
    simp only [ContextManager.build, Window.trimIfNeeded, heq]
    simp

/-- A concrete idle daemon state within budget for the C8 witness. -/
def stIdle : DaemonState :=
  { queryInProgress := false, manager := (ContextManager.init 2500).addTurn "hi" "yo" }

/-- Witness for C8 at `stIdle` (window within budget at acceptance): a
non-cancellation failure produces `{error}` + `{done}` and leaves turn
count, memory, window and topics unchanged. -/
theorem backend_failure_frames_and_state_witness :
    (handleQuery stIdle "q" 0 (QueryOutcome.failure false "boom")).2 =
      [Frame.error "boom", Frame.done] ∧
    (handleQuery stIdle "q" 0 (QueryOutcome.failure false "boom")).1.manager.turnCount =
      stIdle.manager.turnCount ∧
    (handleQuery stIdle "q" 0 (QueryOutcome.failure false "boom")).1.manager.memory =
      stIdle.manager.memory ∧
    (handleQuery stIdle "q" 0 (QueryOutcome.failure false "boom")).1.manager.window =
      stIdle.manager.window ∧
    (handleQuery stIdle "q" 0 (QueryOutcome.failure false "boom")).1.manager.topics =
      stIdle.manager.topics := by
  have h := backend_failure_frames_and_state stIdle "q" 0 "boom" rfl
  exact ⟨h.1, h.2.2.1, h.2.2.2.1, (h.2.2.2.2 (by decide) (by decide)).1,
    (h.2.2.2.2 (by decide) (by decide)).2⟩

end ClaudeShell
